import Mathlib

/-
Verification of the BlocklistAggregate pipeline.

Shallow embedding of the aggregation / scoring / deduplication / ranking
pipeline implemented in build_list.py, main.py and aggregate.py.  Domains are
modelled as lists of characters; Python dict / Counter registries are modelled
as insertion-ordered association lists; the per-line parsers, the ingest loop,
the smart-dedup pass, the exclusion-suffix loader and the ranking step are
translated function by function from the source.
-/

/-- A domain (or a raw text line) is a list of characters. -/
abbrev Dom := List Char

/-- Whitespace test matching Python str.strip / str.split for ASCII text. -/
def isSpaceB (c : Char) : Bool :=
  c == ' ' || c == '\t' || c == '\n' || c == '\r' || c == '\x0b' || c == '\x0c'

/-- Lower-casing of one ASCII character, as Python str.lower acts on it. -/
def lowerChar (c : Char) : Char :=
  if 'A' ≤ c ∧ c ≤ 'Z' then Char.ofNat (c.toNat + 32) else c

/-- Drop trailing whitespace. -/
def dropTrail (l : Dom) : Dom := (l.reverse.dropWhile isSpaceB).reverse

/-- Python str.strip: drop leading and trailing whitespace. -/
def trimB (l : Dom) : Dom := dropTrail (l.dropWhile isSpaceB)

/-- Helper for splitWs: words accumulated in reverse. -/
def splitWsAux : Dom → Dom → List Dom
  | [], acc => if acc = [] then [] else [acc.reverse]
  | c :: rest, acc =>
    if isSpaceB c then
      if acc = [] then splitWsAux rest [] else acc.reverse :: splitWsAux rest []
    else splitWsAux rest (c :: acc)

/-- Python str.split() with no argument: split on whitespace runs, no empties. -/
def splitWs (l : Dom) : List Dom := splitWsAux l []

/-- Python membership test of a character in a string. -/
def hasChar (l : Dom) (c : Char) : Bool := l.any (fun a => a == c)

/-- The sinkhole address 0.0.0.0 recognised by the hosts-format parsers. -/
def ip0 : Dom := ("0.0.0.0").data

/-- The sinkhole address 127.0.0.1 recognised by the hosts-format parsers. -/
def ip1 : Dom := ("127.0.0.1").data

/-- Per-line logic of fetch_domains in build_list.py (lines 90-100): strip and
lower the line; if it contains a hash, keep only the part before the first
hash and strip again; skip blank lines and lines starting with an exclamation
mark; then read a hosts-shaped pair or a bare single token. -/
def parseDcore (l0 : Dom) : Option Dom :=
  let l1 := if hasChar l0 '#' then trimB (l0.takeWhile (fun c => !(c == '#'))) else l0
  match l1 with
  | [] => none
  | c :: rest =>
    if c = '!' then none
    else
      match splitWs (c :: rest) with
      | [] => none
      | [t] => some t
      | a :: b :: _ => if a = ip0 ∨ a = ip1 then some b else none

/-- Parser of build_list.py applied to a raw line: strip and lower first. -/
def parseD (line : Dom) : Option Dom := parseDcore ((trimB line).map lowerChar)

/-- Per-line logic of parse_domains in main.py (lines 35-51): strip and lower;
skip blank lines and lines starting with an exclamation mark or a hash; cut at
the first hash and strip; remove a leading star-dot; then read a hosts-shaped
pair or a bare single token. -/
def parseMcore (l0 : Dom) : Option Dom :=
  match l0 with
  | [] => none
  | c :: rest =>
    if c = '!' ∨ c = '#' then none
    else
      let l1 := trimB ((c :: rest).takeWhile (fun x => !(x == '#')))
      let l2 := match l1 with
        | '*' :: '.' :: r => r
        | other => other
      match splitWs l2 with
      | [] => none
      | [t] => some t
      | a :: b :: _ => if a = ip0 ∨ a = ip1 then some b else none

/-- Parser of main.py applied to a raw line: strip and lower first. -/
def parseM (line : Dom) : Option Dom := parseMcore ((trimB line).map lowerChar)

/-- Registry update: domain_data[d]['score'] += weight with dict semantics
(update the existing entry in place, or append a fresh entry at the end),
projected to the score field. -/
def bump (reg : List (Dom × Nat)) (d : Dom) (w : Nat) : List (Dom × Nat) :=
  match reg with
  | [] => [(d, w)]
  | (e, s) :: rest => if e = d then (e, s + w) :: rest else (e, s) :: bump rest d w

/-- Score lookup with Counter semantics: a missing key reads as zero. -/
def lookupS (reg : List (Dom × Nat)) (d : Dom) : Nat :=
  match reg with
  | [] => 0
  | (e, s) :: rest => if e = d then s else lookupS rest d

/-- Optional record lookup: none when the domain is not a key. -/
def lookupO (reg : List (Dom × Nat)) (d : Dom) : Option Nat :=
  match reg with
  | [] => none
  | (e, s) :: rest => if e = d then some s else lookupO rest d

/-- Keys of the registry in insertion order (dict iteration order). -/
def keys (reg : List (Dom × Nat)) : List Dom := reg.map Prod.fst

/-- Python d.endswith(tuple_of_suffixes): true when some listed suffix is a
trailing substring of d; false on an empty tuple. -/
def endsAny (d : Dom) (tlds : List Dom) : Bool := tlds.any (fun s => s.isSuffixOf d)

/-- Ingest-time www collapse in build_list.py (lines 257-258): a single
leading www dot-prefix is removed, once. -/
def stripWww : Dom → Dom
  | 'w' :: 'w' :: 'w' :: '.' :: rest => rest
  | d => d

/-- Ingest loop body of build_list.py main (lines 251-263), score projection:
for each domain of one source set, skip it when it ends with a spam suffix,
otherwise strip a leading www marker and add the source weight. -/
def ingestSet (w : Nat) (tlds : List Dom) : List (Dom × Nat) → List Dom → List (Dom × Nat)
  | reg, [] => reg
  | reg, d :: ds =>
    if endsAny d tlds then ingestSet w tlds reg ds
    else ingestSet w tlds (bump reg (stripWww d) w) ds

/-- Full ingest over all (weight, parsed set) sources, build_list.py main. -/
def buildRegistry (tlds : List Dom) (srcs : List (Nat × List Dom)) : List (Dom × Nat) :=
  srcs.foldl (fun reg s => ingestSet s.1 tlds reg s.2) []

/-- Counter merge of main.py (lines 73-79): for each source, for each domain
of its parsed set, add the source weight to the running score. -/
def mergeScores (srcs : List (Nat × List Dom)) : List (Dom × Nat) :=
  srcs.foldl (fun c s => s.2.foldl (fun c2 d => bump c2 d s.1) c) []

/-- The domain www.root. -/
def wwwDom (root : Dom) : Dom := 'w' :: 'w' :: 'w' :: '.' :: root

/-- One iteration of the smart-dedup loop of main.py (lines 83-87): when the
snapshot element starts with www dot and its remainder is a key of the live
registry, delete the www variant from the live registry. -/
def dedupStep (reg : List (Dom × Nat)) : Dom → List (Dom × Nat)
  | 'w' :: 'w' :: 'w' :: '.' :: root =>
    if root ∈ keys reg then reg.filter (fun p => !(p.1 == wwwDom root)) else reg
  | _ => reg

/-- Smart deduplication pass of main.py: iterate over a snapshot of the keys,
deleting www variants whose remainder is present in the live registry. -/
def smartDedup (reg : List (Dom × Nat)) : List (Dom × Nat) :=
  (keys reg).foldl dedupStep reg

/-- DOMAIN_LIMIT from build_list.py line 37 and main.py line 19. -/
def DOMAIN_LIMIT : Nat := 300000

/-- Sort key of build_list.py line 266 and main.py line 91: score descending,
then domain ascending; domains compare lexicographically by character code as
Python strings do. -/
def rankLe (x y : Dom × Nat) : Bool :=
  if y.2 < x.2 then true else if x.2 = y.2 then decide (x.1 ≤ y.1) else false

/-- Propositional form of the ranking order. -/
def rankRel (x y : Dom × Nat) : Prop := rankLe x y = true

instance : DecidableRel rankRel :=
  fun x y => inferInstanceAs (Decidable (rankLe x y = true))

/-- The sorted registry items: Python sorted(items, key=(-score, domain)). -/
def rankSorted (reg : List (Dom × Nat)) : List (Dom × Nat) :=
  List.insertionSort rankRel reg

/-- Rank and cut: the sorted items truncated to the first DOMAIN_LIMIT. -/
def rankCut (reg : List (Dom × Nat)) : List (Dom × Nat) :=
  (rankSorted reg).take DOMAIN_LIMIT

/-- FinalList of a registry: domains of the ranked, truncated items. -/
def finalOf (reg : List (Dom × Nat)) : List Dom := (rankCut reg).map Prod.fst

/-- FinalList of a full build_list.py run with the given exclusion suffixes. -/
def buildFinal (tlds : List Dom) (srcs : List (Nat × List Dom)) : List Dom :=
  finalOf (buildRegistry tlds srcs)

/-- FinalList of a main.py run from the merged registry. -/
def mainFinal (reg : List (Dom × Nat)) : List Dom := finalOf (smartDedup reg)

/-- Spec-side score (section 4.2 wording): the sum of the weights of every
source whose parsed set contains the domain, each source counted once.  Kept
distinct from the embedded code so the two can be compared. -/
def specScore (srcs : List (Nat × List Dom)) (d : Dom) : Nat :=
  (srcs.map (fun s => if d ∈ s.2 then s.1 else 0)).sum

/-- Helper for splitDots: labels accumulated in reverse. -/
def splitDotsAux : Dom → Dom → List Dom
  | [], acc => [acc.reverse]
  | c :: rest, acc =>
    if c = '.' then acc.reverse :: splitDotsAux rest [] else splitDotsAux rest (c :: acc)

/-- Dot-separated labels of a domain. -/
def splitDots (d : Dom) : List Dom := splitDotsAux d []

/-- Rejoin labels with dots. -/
def joinDots : List Dom → Dom
  | [] => []
  | [l] => l
  | l :: ls => l ++ '.' :: joinDots ls

/-- Modelled from the spec: the public suffix of a label sequence is its
longest trailing run of labels that the public-suffix table lists.  The
public-suffix-aware split is absent from src: the spec prescribes it for the
subdomain-collapse pass, and no source file implements that pass. -/
def pubSuffix (psl : List (List Dom)) : List Dom → List Dom
  | [] => []
  | ls@(_ :: rest) => if ls ∈ psl then ls else pubSuffix psl rest

/-- Modelled from the spec: the registrable domain of d (glossary, eTLD+1) is
the label immediately left of the public suffix together with the public
suffix; absent from src. -/
def registrable (psl : List (List Dom)) (d : Dom) : Dom :=
  let ls := splitDots d
  let suf := pubSuffix psl ls
  joinDots (ls.drop (ls.length - suf.length - 1))

/-- Test for a doubled leading www marker (www.www.…). -/
def dblWww : Dom → Bool
  | 'w' :: 'w' :: 'w' :: '.' :: 'w' :: 'w' :: 'w' :: '.' :: _ => true
  | _ => false

/-- Number of occurrences of a domain in a list of domains. -/
def countDom (e : Dom) : List Dom → Nat
  | [] => 0
  | d :: ds => (if d = e then 1 else 0) + countDom e ds

/-- Python line.replace with the star-dot pattern and an empty replacement:
remove every non-overlapping star-dot occurrence, scanning left to right. -/
def removeStarDot : Dom → Dom
  | '*' :: '.' :: rest => removeStarDot rest
  | c :: rest => c :: removeStarDot rest
  | [] => []

/-- Python line.replace removing every dot character. -/
def removeDots (l : Dom) : Dom := l.filter (fun c => !(c == '.'))

/-- The clean variable of fetch_spam_tlds (build_list.py line 70): the line
with star-dot occurrences removed, then with all dots removed. -/
def cleanTld (l : Dom) : Dom := removeDots (removeStarDot l)

/-- One line of the spam-TLD list (build_list.py lines 66-72): strip and
lower; skip blank lines and hash comments; normalise and, when the result is
nonempty, emit it with a single leading dot. -/
def spamTldLine (line : Dom) : Option Dom :=
  match (trimB line).map lowerChar with
  | [] => none
  | c :: rest =>
    if c = '#' then none
    else
      match cleanTld (c :: rest) with
      | [] => none
      | c2 :: cl => some ('.' :: c2 :: cl)

/-- The suffixes collected from a fetched spam-TLD body, in line order
(the Python set holds the same members). -/
def parseTlds (body : List Dom) : List Dom := body.filterMap spamTldLine

/-- FALLBACK_TLDS of build_list.py lines 29-35. -/
def fallbackTlds : List Dom :=
  [ (".zip").data, (".mov").data, (".loan").data, (".win").data, (".date").data,
    (".review").data, (".party").data, (".accountant").data, (".trade").data,
    (".download").data, (".gdn").data, (".racing").data, (".jetzt").data,
    (".stream").data, (".bid").data, (".men").data, (".bom").data,
    (".click").data, (".cricket").data, (".faith").data, (".link").data,
    (".science").data, (".webcam").data, (".top").data, (".xyz").data,
    (".online").data, (".site").data, (".pro").data, (".work").data,
    (".info").data, (".best").data, (".cam").data, (".cfd").data,
    (".cyou").data, (".icu").data, (".mw").data, (".rest").data,
    (".wiki").data, (".monster").data, (".quest").data, (".bond").data,
    (".bussiness").data, (".center").data, (".club").data, (".cool").data ]

/-- Outcome of the HTTP fetch of the remote exclusion list: an exception, or
a response with a status code and body lines. -/
inductive FetchOutcome where
  | err : FetchOutcome
  | resp : Nat → List Dom → FetchOutcome

/-- fetch_spam_tlds of build_list.py (lines 60-83): parse the body on status
200, fall back to FALLBACK_TLDS on an exception or any other status, and fall
back as well when the collected set is empty. -/
def fetchSpamTlds (r : FetchOutcome) : List Dom :=
  let t := match r with
    | .err => fallbackTlds
    | .resp status body => if status = 200 then parseTlds body else fallbackTlds
  if t = [] then fallbackTlds else t

/-- The sinkhole line leader 0.0.0.0 followed by one space. -/
def hostsPre : Dom := ("0.0.0.0 ").data

/-- Header line of blocklist.txt (build_list.py line 323); the apostrophe is
written by code point. -/
def hostsHeader : Dom := ("# Isaac").data ++ [Char.ofNat 39] ++ ("s SOC Blocklist").data

/-- Lines of the hosts-format output file (build_list.py lines 322-324): the
header comment line, then one sinkhole line per final-list entry. -/
def hostsLines (L : List Dom) : List Dom :=
  hostsHeader :: L.map (fun d => hostsPre ++ d)

/-- Re-parse a list of lines with the build_list.py Line Parser, collecting
every parsed domain. -/
def parseAll (lines : List Dom) : List Dom := lines.filterMap parseD

/-- Canonical domain strings: nonempty, whitespace-free, hash-free and
already lower-case. -/
def canonicalDom (d : Dom) : Prop :=
  d ≠ [] ∧ ∀ c ∈ d, isSpaceB c = false ∧ c ≠ '#' ∧ lowerChar c = c

instance (d : Dom) : Decidable (canonicalDom d) :=
  inferInstanceAs
    (Decidable (d ≠ [] ∧ ∀ c ∈ d, isSpaceB c = false ∧ c ≠ '#' ∧ lowerChar c = c))

-- Concrete data used in examples and counterexamples.

/-- The domain x.com. -/
def dX : Dom := ("x.com").data

/-- The domain y.com. -/
def dY : Dom := ("y.com").data

/-- The domain z.com. -/
def dZ : Dom := ("z.com").data

/-- The two example sources of the spec: A with weight 10, B with weight 5. -/
def exSrcs : List (Nat × List Dom) := [(10, [dX, dY]), (5, [dY, dZ])]

/-- The domain www.x.com. -/
def wwwX : Dom := wwwDom dX

/-- One source of weight 10 containing both www.x.com and x.com. -/
def cSrcs : List (Nat × List Dom) := [(10, [wwwX, dX])]

/-- The domain s.com. -/
def dS : Dom := ("s.com").data

/-- A registry holding www.s.com, www.www.s.com and s.com, in an insertion
order that processes www.s.com first during the smart-dedup snapshot walk. -/
def chainReg : List (Dom × Nat) := [(wwwDom dS, 1), (wwwDom (wwwDom dS), 1), (dS, 1)]

/-- One source of weight 1 containing www.www.x.com and x.com. -/
def dblSrcs : List (Nat × List Dom) := [(1, [wwwDom (wwwDom dX), dX])]

/-- A one-entry public-suffix table containing com. -/
def psl0 : List (List Dom) := [[("com").data]]

/-- The domain example.com. -/
def dEx : Dom := ("example.com").data

/-- The domain sub.example.com. -/
def dSub : Dom := ("sub.example.com").data

/-- One source of weight 1 containing example.com and sub.example.com. -/
def subSrcs : List (Nat × List Dom) := [(1, [dEx, dSub])]

/-- The raw adblock-decorated line, pipes and caret included. -/
def adLine : Dom := ("||ads.example.com^").data

/-- The bare domain ads.example.com. -/
def adsDom : Dom := ("ads.example.com").data

-- ### Theorems

theorem rankRel_iff (x y : Dom × Nat) :
    rankRel x y ↔ y.2 < x.2 ∨ (x.2 = y.2 ∧ x.1 ≤ y.1) := by
  unfold rankRel rankLe
  split_ifs with h1 h2
  · simp [h1]
  · simp [h1, h2]
  · simp [h1, h2]

theorem rankRel_total : ∀ x y : Dom × Nat, rankRel x y ∨ rankRel y x := by
  intro x y
  rw [rankRel_iff, rankRel_iff]
  rcases lt_trichotomy x.2 y.2 with h | h | h
  · right; left; exact h
  · rcases le_total x.1 y.1 with h2 | h2
    · left; right; exact ⟨h, h2⟩
    · right; right; exact ⟨h.symm, h2⟩
  · left; left; exact h

theorem rankRel_trans : ∀ x y z : Dom × Nat,
    rankRel x y → rankRel y z → rankRel x z := by
  intro x y z hxy hyz
  rw [rankRel_iff] at hxy hyz ⊢
  rcases hxy with h1 | ⟨h1, h1d⟩ <;> rcases hyz with h2 | ⟨h2, h2d⟩
  · left; exact h2.trans h1
  · left; omega
  · left; omega
  · right; exact ⟨h1.trans h2, h1d.trans h2d⟩

theorem rankRel_antisymm : ∀ x y : Dom × Nat,
    rankRel x y → rankRel y x → x = y := by
  intro x y hxy hyx
  rw [rankRel_iff] at hxy hyx
  rcases hxy with h1 | ⟨h1, h1d⟩ <;> rcases hyx with h2 | ⟨h2, h2d⟩
  · omega
  · omega
  · omega
  · exact Prod.ext (le_antisymm h1d h2d) h1

theorem rankSorted_perm (reg : List (Dom × Nat)) : (rankSorted reg).Perm reg :=
  List.perm_insertionSort rankRel reg

theorem rankSorted_sorted (reg : List (Dom × Nat)) :
    List.Sorted rankRel (rankSorted reg) := by
  haveI : IsTotal (Dom × Nat) rankRel := ⟨rankRel_total⟩
  haveI : IsTrans (Dom × Nat) rankRel := ⟨rankRel_trans⟩
  exact List.sorted_insertionSort rankRel reg

theorem rankSorted_unique (reg l : List (Dom × Nat)) (hp : l.Perm reg)
    (hs : List.Sorted rankRel l) : l = rankSorted reg := by
  haveI : IsAntisymm (Dom × Nat) rankRel := ⟨rankRel_antisymm⟩
  exact List.eq_of_perm_of_sorted (hp.trans (rankSorted_perm reg).symm) hs
    (rankSorted_sorted reg)

theorem finalOf_mem (reg : List (Dom × Nat)) (d : Dom) (h : d ∈ finalOf reg) :
    d ∈ keys reg := by
  unfold finalOf rankCut at h
  rcases List.mem_map.1 h with ⟨p, hp, rfl⟩
  have hsub : p ∈ rankSorted reg := (List.take_sublist _ _).subset hp
  have : p ∈ reg := (rankSorted_perm reg).subset hsub
  exact List.mem_map.2 ⟨p, this, rfl⟩

/-- C1: the Ranker/Truncator returns exactly the registry items sorted by
score descending then domain ascending, truncated to the first DOMAIN_LIMIT
entries; the final list never exceeds DOMAIN_LIMIT entries, and the result is
a deterministic function of the registry contents (invariant under any
reordering of the registry). -/
theorem c1_ranker_truncator (reg : List (Dom × Nat)) :
    (rankSorted reg).Perm reg ∧
    List.Sorted rankRel (rankSorted reg) ∧
    rankCut reg = (rankSorted reg).take DOMAIN_LIMIT ∧
    (rankCut reg).length ≤ DOMAIN_LIMIT ∧
    (finalOf reg).length ≤ DOMAIN_LIMIT ∧
    (∀ l, l.Perm reg → List.Sorted rankRel l → l = rankSorted reg) ∧
    (∀ reg2, reg.Perm reg2 → rankCut reg = rankCut reg2) := by
  refine ⟨rankSorted_perm reg, rankSorted_sorted reg, rfl, ?_, ?_, ?_, ?_⟩
  · exact List.length_take_le _ _
  · unfold finalOf
    rw [List.length_map]
    exact List.length_take_le _ _
  · exact fun l hp hs => rankSorted_unique reg l hp hs
  · intro reg2 hp
    unfold rankCut
    rw [rankSorted_unique reg2 (rankSorted reg) ((rankSorted_perm reg).trans hp)
      (rankSorted_sorted reg)]

/-- Witness for C1 at a concrete two-entry registry. -/
theorem c1_ranker_truncator_witness :
    [(("b.com").data, (7 : Nat)), (("a.com").data, 3)] =
      rankSorted [(("a.com").data, (3 : Nat)), (("b.com").data, 7)] :=
  (c1_ranker_truncator [(("a.com").data, (3 : Nat)), (("b.com").data, 7)]).2.2.2.2.2.1
    [(("b.com").data, 7), (("a.com").data, 3)] (by decide) (by decide)

theorem bump_lookup (reg : List (Dom × Nat)) (d e : Dom) (w : Nat) :
    lookupS (bump reg d w) e = if e = d then lookupS reg e + w else lookupS reg e := by
  induction reg with
  | nil =>
    by_cases h : e = d
    · subst h; simp [bump, lookupS]
    · simp [bump, lookupS, h, Ne.symm h]
  | cons p rest ih =>
    obtain ⟨k, s⟩ := p
    by_cases hk : k = d
    · subst hk
      by_cases he : e = k
      · subst he; simp [bump, lookupS]
      · simp [bump, lookupS, he, Ne.symm he]
    · by_cases he : e = k
      · subst he
        simp [bump, lookupS, hk, Ne.symm hk]
      · simp [bump, lookupS, hk, Ne.symm he, ih]

theorem countDom_not_mem (e : Dom) (ds : List Dom) (h : e ∉ ds) :
    countDom e ds = 0 := by
  induction ds with
  | nil => rfl
  | cons d ds ih =>
    have hd : d ≠ e := fun hh => h (hh ▸ List.mem_cons_self d ds)
    simp only [countDom, if_neg hd, Nat.zero_add]
    exact ih (fun hh => h (List.mem_cons_of_mem d hh))

theorem countDom_nodup_mem (e : Dom) (ds : List Dom) (hnd : ds.Nodup)
    (h : e ∈ ds) : countDom e ds = 1 := by
  induction ds with
  | nil => cases h
  | cons d ds ih =>
    rcases List.mem_cons.1 h with h1 | h1
    · subst h1
      have h0 := countDom_not_mem e ds (List.nodup_cons.1 hnd).1
      simp [countDom, h0]
    · have hd : d ≠ e := fun hh => (List.nodup_cons.1 hnd).1 (hh ▸ h1)
      simp only [countDom, if_neg hd, Nat.zero_add]
      exact ih (List.nodup_cons.1 hnd).2 h1

theorem ingest_fold_lookup (w : Nat) (ds : List Dom) (c : List (Dom × Nat)) (e : Dom) :
    lookupS (ds.foldl (fun c2 d => bump c2 d w) c) e =
      lookupS c e + w * countDom e ds := by
  induction ds generalizing c with
  | nil => simp [countDom]
  | cons d ds ih =>
    rw [List.foldl_cons, ih, bump_lookup]
    by_cases h : e = d
    · subst h
      simp only [countDom, eq_self_iff_true, if_true]
      ring
    · simp only [countDom, if_neg (Ne.symm h)]
      rw [if_neg h]
      ring

theorem mergeScores_fold_lookup (srcs : List (Nat × List Dom))
    (c : List (Dom × Nat)) (e : Dom) :
    lookupS (srcs.foldl (fun c2 s => s.2.foldl (fun c3 d => bump c3 d s.1) c2) c) e =
      lookupS c e + (srcs.map (fun s => s.1 * countDom e s.2)).sum := by
  induction srcs generalizing c with
  | nil => simp
  | cons s srcs ih =>
    rw [List.foldl_cons, ih, ingest_fold_lookup]
    simp [Nat.add_assoc]

/-- C2 counterexample: in the fused ingest loop of build_list.py, a source of
weight 10 whose parsed set contains both www.x.com and x.com contributes its
weight twice to x.com (www.x.com is www-collapsed onto x.com before scoring),
so the registry score 20 differs from the spec-side sum 10 of the weights of
the sources containing x.com. -/
theorem c2_merge_counterexample :
    lookupS (buildRegistry [] cSrcs) dX = 20 ∧ specScore cSrcs dX = 10 := by decide

/-- C2 as amended: after the Counter merge of main.py, the score of every
domain is the sum of the weights of exactly the sources whose parsed set
contains it, each such source contributing its weight exactly once; in
build_list.py a source instead contributes once per set member that
www-collapses onto the domain.  The concrete example holds in both pipelines:
sources A(10)={x.com,y.com} and B(5)={y.com,z.com} with an empty exclusion
set give scores x.com=10, y.com=15, z.com=5 and rank order
[y.com, x.com, z.com]. -/
theorem c2_merge_amended :
    (∀ srcs : List (Nat × List Dom), (∀ s ∈ srcs, s.2.Nodup) →
      ∀ d, lookupS (mergeScores srcs) d = specScore srcs d) ∧
    lookupS (mergeScores exSrcs) dX = 10 ∧
    lookupS (mergeScores exSrcs) dY = 15 ∧
    lookupS (mergeScores exSrcs) dZ = 5 ∧
    mainFinal (mergeScores exSrcs) = [dY, dX, dZ] ∧
    buildFinal [] exSrcs = [dY, dX, dZ] := by
  refine ⟨?_, by decide, by decide, by decide, by decide, by decide⟩
  intro srcs hnd d
  unfold mergeScores specScore
  rw [mergeScores_fold_lookup]
  simp only [lookupS, Nat.zero_add]
  congr 1
  apply List.map_congr_left
  intro s hs
  by_cases h : d ∈ s.2
  · rw [if_pos h, countDom_nodup_mem d s.2 (hnd s hs) h, Nat.mul_one]
  · rw [if_neg h, countDom_not_mem d s.2 h, Nat.mul_zero]

/-- Witness for the universally quantified part of the amended C2. -/
theorem c2_merge_amended_witness :
    lookupS (mergeScores exSrcs) dY = specScore exSrcs dY :=
  c2_merge_amended.1 exSrcs (by decide) dY

theorem bump_keys (reg : List (Dom × Nat)) (d e : Dom) (w : Nat)
    (h : e ∈ keys (bump reg d w)) : e ∈ keys reg ∨ e = d := by
  induction reg with
  | nil =>
    simp [bump, keys] at h
    right; exact h
  | cons p rest ih =>
    obtain ⟨k, s⟩ := p
    by_cases hk : k = d
    · subst hk
      simp [bump, keys] at h ⊢
      exact Or.inl h
    · simp [bump, hk, keys] at h ⊢
      rcases h with h | h
      · exact Or.inl (Or.inl h)
      · rcases ih (by simpa [keys] using h) with h2 | h2
        · exact Or.inl (Or.inr (by simpa [keys] using h2))
        · exact Or.inr h2

theorem ingestSet_keys (w : Nat) (tlds : List Dom) (reg : List (Dom × Nat))
    (ds : List Dom) (e : Dom) (h : e ∈ keys (ingestSet w tlds reg ds)) :
    e ∈ keys reg ∨ ∃ d ∈ ds, endsAny d tlds = false ∧ e = stripWww d := by
  induction ds generalizing reg with
  | nil =>
    left
    simpa [ingestSet] using h
  | cons d ds ih =>
    simp only [ingestSet] at h
    by_cases hc : endsAny d tlds = true
    · rw [if_pos hc] at h
      rcases ih _ h with h1 | ⟨d2, hd2, hh⟩
      · exact Or.inl h1
      · exact Or.inr ⟨d2, List.mem_cons_of_mem _ hd2, hh⟩
    · rw [if_neg hc] at h
      rcases ih _ h with h1 | ⟨d2, hd2, hh⟩
      · rcases bump_keys _ _ _ _ h1 with h2 | h2
        · exact Or.inl h2
        · exact Or.inr ⟨d, List.mem_cons_self _ _,
            Bool.not_eq_true _ ▸ hc, h2⟩
      · exact Or.inr ⟨d2, List.mem_cons_of_mem _ hd2, hh⟩

theorem buildRegistry_keys (tlds : List Dom) (srcs : List (Nat × List Dom)) (e : Dom)
    (h : e ∈ keys (buildRegistry tlds srcs)) :
    ∃ s ∈ srcs, ∃ d ∈ s.2, endsAny d tlds = false ∧ e = stripWww d := by
  suffices H : ∀ (srcs2 : List (Nat × List Dom)) (reg : List (Dom × Nat)),
      e ∈ keys (srcs2.foldl (fun r s => ingestSet s.1 tlds r s.2) reg) →
      e ∈ keys reg ∨ ∃ s ∈ srcs2, ∃ d ∈ s.2, endsAny d tlds = false ∧ e = stripWww d by
    rcases H srcs [] h with h1 | h1
    · simp [keys] at h1
    · exact h1
  intro srcs2
  induction srcs2 with
  | nil => intro reg h2; exact Or.inl h2
  | cons s srcs2 ih =>
    intro reg h2
    rw [List.foldl_cons] at h2
    rcases ih _ h2 with h3 | ⟨s2, hs2, hh⟩
    · rcases ingestSet_keys _ _ _ _ _ h3 with h4 | ⟨d, hd, hh⟩
      · exact Or.inl h4
      · exact Or.inr ⟨s, List.mem_cons_self _ _, d, hd, hh⟩
    · exact Or.inr ⟨s2, List.mem_cons_of_mem _ hs2, hh⟩

theorem stripWww_sfx (d : Dom) : stripWww d <:+ d := by
  unfold stripWww
  split
  · exact ⟨['w', 'w', 'w', '.'], rfl⟩
  · exact List.suffix_refl _

theorem endsAny_false (d : Dom) (tlds : List Dom) (h : endsAny d tlds = false) :
    ∀ s ∈ tlds, ¬ s <:+ d := by
  intro s hs hsfx
  unfold endsAny at h
  rw [List.any_eq_false] at h
  exact (h s hs) (List.isSuffixOf_iff_suffix.2 hsfx)

/-- C3: in every build_list.py run, no suffix of the exclusion set is a
trailing substring of any domain of the final list, whatever the scores; in
particular evil.top with score 1000 under exclusion set containing .top never
appears in the final list. -/
theorem c3_exclusion_invariant :
    (∀ (tlds : List Dom) (srcs : List (Nat × List Dom)) (d : Dom),
      d ∈ buildFinal tlds srcs → ∀ s ∈ tlds, ¬ s <:+ d) ∧
    (("evil.top").data ∉ buildFinal [ (".top").data ] [(1000, [ ("evil.top").data ])]) := by
  constructor
  · intro tlds srcs d hd s hs hsfx
    have hk := finalOf_mem _ _ hd
    rcases buildRegistry_keys tlds srcs d hk with ⟨src, hsrc, e, he, hno, rfl⟩
    exact endsAny_false e tlds hno s hs (hsfx.trans (stripWww_sfx e))
  · decide

/-- Witness for C3 at a concrete run containing one retained domain. -/
theorem c3_exclusion_invariant_witness :
    ¬ ( (".top").data <:+ ("safe.example").data ) :=
  c3_exclusion_invariant.1 [ (".top").data ] [(7, [ ("safe.example").data ])]
    (("safe.example").data) (by decide) ((".top").data) (by decide)

theorem keys_filter_mem (reg : List (Dom × Nat)) (p : Dom × Nat → Bool) (e : Dom)
    (h : e ∈ keys (reg.filter p)) : e ∈ keys reg :=
  ((reg.filter_sublist).map Prod.fst).subset h

theorem dedupStep_keys (reg : List (Dom × Nat)) (d e : Dom)
    (h : e ∈ keys (dedupStep reg d)) : e ∈ keys reg := by
  unfold dedupStep at h
  split at h
  · split_ifs at h with hc
    · exact keys_filter_mem _ _ _ h
    · exact h
  · exact h

theorem dedupFold_keys (ds : List Dom) (reg : List (Dom × Nat)) (e : Dom)
    (h : e ∈ keys (ds.foldl dedupStep reg)) : e ∈ keys reg := by
  induction ds generalizing reg with
  | nil => exact h
  | cons d ds ih =>
    exact dedupStep_keys _ _ _ (ih (dedupStep reg d) (by rwa [List.foldl_cons] at h))

theorem dedupFold_no_pair (ds : List Dom) (reg : List (Dom × Nat)) (root : Dom)
    (hw : wwwDom root ∈ keys (ds.foldl dedupStep reg))
    (hr : root ∈ keys (ds.foldl dedupStep reg)) :
    wwwDom root ∉ ds := by
  induction ds generalizing reg with
  | nil => simp
  | cons d ds ih =>
    rw [List.foldl_cons] at hw hr
    intro hmem
    rcases List.mem_cons.1 hmem with h1 | h1
    · subst h1
      by_cases hc : root ∈ keys reg
      · have hw2 := dedupFold_keys ds _ _ hw
        rw [show dedupStep reg (wwwDom root) =
            reg.filter (fun p => !(p.1 == wwwDom root)) by
          simp only [wwwDom, dedupStep]
          rw [if_pos hc]] at hw2
        rcases List.mem_map.1 hw2 with ⟨p, hp, hfst⟩
        have hkeep := (List.mem_filter.1 hp).2
        rw [hfst] at hkeep
        simp at hkeep
      · have hr2 := dedupFold_keys ds _ _ hr
        exact hc (dedupStep_keys _ _ _ hr2)
    · exact ih (dedupStep reg d) hw hr h1

theorem smartDedup_no_pair (reg : List (Dom × Nat)) (root : Dom)
    (hw : wwwDom root ∈ keys (smartDedup reg))
    (hr : root ∈ keys (smartDedup reg)) : False := by
  have h1 : wwwDom root ∈ keys reg := dedupFold_keys _ _ _ hw
  exact dedupFold_no_pair (keys reg) reg root hw hr h1

theorem lookupO_filter_ne (reg : List (Dom × Nat)) (d e : Dom) (hne : e ≠ d) :
    lookupO (reg.filter (fun p => !(p.1 == d))) e = lookupO reg e := by
  induction reg with
  | nil => rfl
  | cons p rest ih =>
    obtain ⟨k, s⟩ := p
    by_cases hk : k = d
    · subst hk
      have hke : k ≠ e := Ne.symm hne
      simp only [List.filter, beq_self_eq_true, Bool.not_true]
      rw [ih]
      simp [lookupO, hke]
    · have hkeep : (!(k == d)) = true := by simp [hk]
      simp only [List.filter, hkeep]
      by_cases hke : k = e
      · simp [lookupO, hke]
      · simp [lookupO, hke, ih]

theorem lookupO_ne_none_iff (reg : List (Dom × Nat)) (d : Dom) :
    lookupO reg d ≠ none ↔ d ∈ keys reg := by
  induction reg with
  | nil => simp [lookupO, keys]
  | cons p rest ih =>
    obtain ⟨k, s⟩ := p
    by_cases hk : k = d
    · subst hk
      simp [lookupO, keys]
    · simp [lookupO, keys, hk, Ne.symm hk, ih]

theorem dedupFold_lookupO (ds : List Dom) (reg reg0 : List (Dom × Nat)) (root : Dom)
    (hroot : root ∉ keys reg0) (hsub : ∀ e, e ∈ keys reg → e ∈ keys reg0) :
    lookupO (ds.foldl dedupStep reg) (wwwDom root) = lookupO reg (wwwDom root) := by
  induction ds generalizing reg with
  | nil => rfl
  | cons d ds ih =>
    rw [List.foldl_cons]
    have hstep : lookupO (dedupStep reg d) (wwwDom root) = lookupO reg (wwwDom root) := by
      unfold dedupStep
      split
      · rename_i r
        split_ifs with hc
        · have hne : wwwDom root ≠ wwwDom r := by
            intro hh
            have hrr : root = r := by
              simpa [wwwDom] using hh
            subst hrr
            exact hroot (hsub _ hc)
          exact lookupO_filter_ne _ _ _ hne
        · rfl
      · rfl
    rw [ih (dedupStep reg d) (fun e he => hsub e (dedupStep_keys _ _ _ he)), hstep]

theorem smartDedup_lookupO (reg : List (Dom × Nat)) (root : Dom)
    (h : root ∉ keys reg) :
    lookupO (smartDedup reg) (wwwDom root) = lookupO reg (wwwDom root) :=
  dedupFold_lookupO (keys reg) reg reg root h (fun _ he => he)

theorem stripWww_not_www (d : Dom) (hd : dblWww d = false) (root : Dom) :
    stripWww d ≠ wwwDom root := by
  intro h
  unfold stripWww at h
  split at h
  · rename_i rest
    subst h
    simp [dblWww, wwwDom] at hd
  · rename_i hno
    exact hno root (by simpa [wwwDom] using h)

/-- C6 counterexample: in build_list.py, a source containing www.www.x.com and
x.com yields a final list containing both www.x.com and x.com (the ingest
loop strips the www marker only once), so a www/root pair coexists in the
final list. -/
theorem c6_no_www_pair_counterexample :
    dX ∈ buildFinal [] dblSrcs ∧ wwwDom dX ∈ buildFinal [] dblSrcs := by decide

/-- C6 as amended: in main.py, no registry ever produces a final list holding
both a domain and its www variant; in build_list.py the same holds provided
no ingested source domain carries a doubled www marker. -/
theorem c6_no_www_pair_amended :
    (∀ (reg : List (Dom × Nat)) (root : Dom),
      ¬ (root ∈ mainFinal reg ∧ wwwDom root ∈ mainFinal reg)) ∧
    (∀ (tlds : List Dom) (srcs : List (Nat × List Dom)),
      (∀ s ∈ srcs, ∀ d ∈ s.2, dblWww d = false) →
      ∀ root, ¬ (root ∈ buildFinal tlds srcs ∧ wwwDom root ∈ buildFinal tlds srcs)) := by
  constructor
  · rintro reg root ⟨hr, hw⟩
    exact smartDedup_no_pair reg root (finalOf_mem _ _ hw) (finalOf_mem _ _ hr)
  · rintro tlds srcs hnd root ⟨hr, hw⟩
    have hk := finalOf_mem _ _ hw
    rcases buildRegistry_keys tlds srcs _ hk with ⟨s, hs, d, hd, hno, heq⟩
    exact stripWww_not_www d (hnd s hs d hd) root heq.symm

/-- Witness for the amended C6 on a concrete doubled-www-free run. -/
theorem c6_no_www_pair_amended_witness :
    ¬ (dX ∈ buildFinal [] exSrcs ∧ wwwDom dX ∈ buildFinal [] exSrcs) :=
  c6_no_www_pair_amended.2 [] exSrcs (by decide) dX

/-- C5 counterexample: in the registry [www.s.com, www.www.s.com, s.com] the
domain www.www.s.com begins with www. and its remainder www.s.com is present
in the registry, yet the smart-dedup pass retains www.www.s.com (the
remainder was itself deleted earlier in the walk, and the membership test is
made against the live, shrinking registry), refuting the claimed
removes-iff-remainder-present characterisation. -/
theorem c5_www_collapse_counterexample :
    wwwDom (wwwDom dS) ∈ keys chainReg ∧
    wwwDom dS ∈ keys chainReg ∧
    wwwDom (wwwDom dS) ∈ keys (smartDedup chainReg) := by decide

/-- C5 as amended: the www-collapse pass of main.py retains, with its record
unchanged, every www-prefixed domain whose remainder is absent from the
registry; it removes a www-prefixed domain only if its remainder was present
in the input registry; and whenever the remainder survives the pass the www
variant is removed.  (When the remainder is itself a www variant deleted
earlier in the walk, the www-prefixed domain may be retained even though its
remainder was initially present.) -/
theorem c5_www_collapse_amended :
    (∀ (reg : List (Dom × Nat)) (root : Dom), root ∉ keys reg →
      lookupO (smartDedup reg) (wwwDom root) = lookupO reg (wwwDom root)) ∧
    (∀ (reg : List (Dom × Nat)) (root : Dom),
      wwwDom root ∈ keys reg → wwwDom root ∉ keys (smartDedup reg) →
      root ∈ keys reg) ∧
    (∀ (reg : List (Dom × Nat)) (root : Dom),
      root ∈ keys (smartDedup reg) → wwwDom root ∉ keys (smartDedup reg)) := by
  refine ⟨smartDedup_lookupO, ?_, ?_⟩
  · intro reg root hin hout
    by_contra hroot
    have hpres := smartDedup_lookupO reg root hroot
    have h1 : lookupO reg (wwwDom root) ≠ none := (lookupO_ne_none_iff _ _).2 hin
    have h2 : lookupO (smartDedup reg) (wwwDom root) ≠ none := by
      rw [hpres]; exact h1
    exact hout ((lookupO_ne_none_iff _ _).1 h2)
  · intro reg root hr hw
    exact smartDedup_no_pair reg root hw hr

/-- Witness for the amended C5: a www-only registry keeps its record. -/
theorem c5_www_collapse_amended_witness :
    lookupO (smartDedup [(wwwDom dX, 5)]) (wwwDom dX) = lookupO [(wwwDom dX, 5)] (wwwDom dX) :=
  c5_www_collapse_amended.1 [(wwwDom dX, 5)] dX (by decide)

/-- C4 counterexample: no subdomain-collapse pass runs in build_list.py: with
public-suffix table containing com, the run on one source holding example.com
and sub.example.com keeps sub.example.com in the final list although its
registrable domain example.com is also kept and is strictly shorter, so the
claimed no-redundancy consequence fails. -/
theorem c4_subdomain_collapse_counterexample :
    dSub ∈ buildFinal [] subSrcs ∧
    registrable psl0 dSub ∈ buildFinal [] subSrcs ∧
    registrable psl0 dSub ≠ dSub ∧
    (registrable psl0 dSub).length < dSub.length := by decide

/-- C4 as amended: the redundancy reduction of build_list.py consists of the
ingest-time www collapse only; no subdomain-collapse pass exists, the
surviving registry goes directly to the ranker, and a kept domain may share
its registrable domain with a previously kept shorter name: the run above
retains exactly [example.com, sub.example.com]. -/
theorem c4_subdomain_collapse_amended :
    buildFinal [] subSrcs = [dEx, dSub] ∧
    registrable psl0 dSub = dEx ∧
    registrable psl0 dEx = dEx := by decide

theorem dropWhile_append_single (p : Char → Bool) (xs : List Char) (c : Char)
    (hc : p c = false) :
    (xs ++ [c]).dropWhile p = xs.dropWhile p ++ [c] := by
  induction xs with
  | nil => simp [List.dropWhile, hc]
  | cons x xs ih =>
    by_cases hx : p x = true
    · simp [List.dropWhile_cons, hx, ih]
    · simp [List.dropWhile_cons, hx]

theorem dropTrail_cons (c : Char) (l : Dom) (hc : isSpaceB c = false) :
    dropTrail (c :: l) = c :: dropTrail l := by
  unfold dropTrail
  rw [List.reverse_cons, dropWhile_append_single _ _ _ hc, List.reverse_append]
  rfl

theorem trimB_cons (c : Char) (l : Dom) (hc : isSpaceB c = false) :
    trimB (c :: l) = c :: dropTrail l := by
  unfold trimB
  rw [List.dropWhile_cons, if_neg (by simp [hc]), dropTrail_cons c l hc]

theorem parseDcore_exclam (rest : Dom) : parseDcore ('!' :: rest) = none := by
  unfold parseDcore
  by_cases h : hasChar ('!' :: rest) '#' = true
  · rw [if_pos h]
    have ht : ('!' :: rest).takeWhile (fun c => !(c == '#')) =
        '!' :: rest.takeWhile (fun c => !(c == '#')) := by
      simp [List.takeWhile_cons]
    rw [ht, trimB_cons _ _ (by decide)]
    rfl
  · rw [if_neg h]
    rfl

/-- C7 counterexample: both cited parsers leave the adblock decorations in
place: the line of pipes and caret parses to the decorated token itself, and
that token is not the bare domain ads.example.com the claim promises. -/
theorem c7_line_parser_counterexample :
    parseD adLine = some adLine ∧
    parseM adLine = some adLine ∧
    adLine ≠ adsDom := by decide

/-- C7 as amended: the parsers of build_list.py and main.py discard blank
lines, hash-initial lines and exclamation-initial lines, and cut trailing
inline hash comments; main.py strips a leading star-dot while build_list.py
does not; neither parser strips the pipes or the caret, and neither treats an
opening square bracket as a comment marker: the decorated line parses to the
decorated token, a single-token bracket line is kept verbatim, and the
bracket header line yields no domain only because it has two tokens whose
first is not a sinkhole address. -/
theorem c7_line_parser_amended :
    (parseDcore [] = none ∧ parseMcore [] = none) ∧
    (∀ rest : Dom, parseDcore ('#' :: rest) = none ∧ parseMcore ('#' :: rest) = none) ∧
    (∀ rest : Dom, parseDcore ('!' :: rest) = none ∧ parseMcore ('!' :: rest) = none) ∧
    parseD (("ads.example.com # promo").data) = some adsDom ∧
    parseM (("ads.example.com # promo").data) = some adsDom ∧
    parseM (("*.ads.example.com").data) = some adsDom ∧
    parseD (("*.ads.example.com").data) = some (("*.ads.example.com").data) ∧
    parseD (("   ").data) = none ∧
    parseM (("   ").data) = none ∧
    parseD (("[adblock plus]").data) = none ∧
    parseM (("[adblock plus]").data) = none ∧
    parseD (("[adblock]").data) = some (("[adblock]").data) ∧
    parseM (("[adblock]").data) = some (("[adblock]").data) ∧
    parseD (("0.0.0.0 ads.example.com").data) = some adsDom ∧
    parseM (("0.0.0.0 ads.example.com").data) = some adsDom := by
  refine ⟨⟨rfl, rfl⟩, fun rest => ⟨rfl, rfl⟩, fun rest => ⟨parseDcore_exclam rest, rfl⟩,
    by decide, by decide, by decide, by decide, by decide, by decide, by decide,
    by decide, by decide, by decide, by decide, by decide⟩

/-- Witness for the amended C7 at one concrete comment line. -/
theorem c7_line_parser_amended_witness :
    parseDcore (('#') :: ("header").data) = none :=
  (c7_line_parser_amended.2.1 (("header").data)).1

/-- C8: whenever the remote exclusion list cannot be fetched (an exception, a
status other than 200, or an empty parsed result) the loader returns the
built-in fallback suffix set, and on every outcome the returned suffix set is
nonempty, so the exclusion filter always operates on a nonempty suffix set
and is never silently skipped. -/
theorem c8_fallback_tlds :
    (∀ r : FetchOutcome, fetchSpamTlds r ≠ []) ∧
    fetchSpamTlds FetchOutcome.err = fallbackTlds ∧
    (∀ (status : Nat) (body : List Dom), status ≠ 200 →
      fetchSpamTlds (FetchOutcome.resp status body) = fallbackTlds) ∧
    (∀ body : List Dom, parseTlds body = [] →
      fetchSpamTlds (FetchOutcome.resp 200 body) = fallbackTlds) := by
  have hfb : fallbackTlds ≠ ([] : List Dom) := by simp [fallbackTlds]
  refine ⟨?_, ?_, ?_, ?_⟩
  · intro r
    unfold fetchSpamTlds
    cases r with
    | err => simp [hfb]
    | resp status body =>
      by_cases hs : status = 200
      · subst hs
        simp only [if_pos rfl]
        by_cases hp : parseTlds body = []
        · simp [hp, hfb]
        · simp [hp]
      · simp [hs, hfb]
  · simp [fetchSpamTlds, hfb]
  · intro status body hs
    simp [fetchSpamTlds, hs, hfb]
  · intro body hp
    simp [fetchSpamTlds, hp, hfb]

/-- Witness for C8 at a concrete failed fetch with status 500. -/
theorem c8_fallback_tlds_witness :
    fetchSpamTlds (FetchOutcome.resp 500 []) = fallbackTlds :=
  c8_fallback_tlds.2.2.1 500 [] (by decide)

theorem removeDots_no_dot (l : Dom) : '.' ∉ removeDots l := by
  intro h
  unfold removeDots at h
  have hf := (List.mem_filter.1 h).2
  simp at hf

/-- C10: every suffix collected from a successfully fetched remote exclusion
list is a single leading dot followed by a nonempty dot-free string, because
the loader removes every dot from the line before prepending one; a
multi-label suffix such as .co.uk therefore can never be a member of a
remotely fetched exclusion set. -/
theorem c10_dot_free_suffixes :
    (∀ (body : List Dom) (s : Dom), s ∈ parseTlds body →
      ∃ c : Dom, s = '.' :: c ∧ c ≠ [] ∧ '.' ∉ c) ∧
    (∀ body : List Dom, (".co.uk").data ∉ parseTlds body) := by
  have main : ∀ (body : List Dom) (s : Dom), s ∈ parseTlds body →
      ∃ c : Dom, s = '.' :: c ∧ c ≠ [] ∧ '.' ∉ c := by
    intro body s hs
    unfold parseTlds at hs
    rcases List.mem_filterMap.1 hs with ⟨line, _, hp⟩
    unfold spamTldLine at hp
    split at hp
    · exact absurd hp (by simp)
    · split_ifs at hp with hc
      split at hp
      · exact absurd hp (by simp)
      · rename_i c2 cl heq
        refine ⟨c2 :: cl, ?_, List.cons_ne_nil c2 cl, ?_⟩
        · exact (Option.some.injEq _ _ ▸ hp).symm
        · rw [← heq]
          exact removeDots_no_dot _
  refine ⟨main, ?_⟩
  intro body h
  rcases main body _ h with ⟨c, hc, _, hdot⟩
  have h2 : ('.' : Char) :: ("co.uk").data = '.' :: c := hc
  injection h2 with _ h3
  rw [← h3] at hdot
  exact hdot (by decide)

/-- Witness for C10 at a concrete fetched body with one line. -/
theorem c10_dot_free_suffixes_witness :
    ∃ c : Dom, (".zip").data = '.' :: c ∧ c ≠ [] ∧ '.' ∉ c :=
  c10_dot_free_suffixes.1 [ ("zip").data ] ((".zip").data) (by decide)

theorem map_lowerChar_self (d : Dom) (h : ∀ c ∈ d, lowerChar c = c) :
    d.map lowerChar = d := by
  induction d with
  | nil => rfl
  | cons c cs ih =>
    rw [List.map_cons, h c (List.mem_cons_self c cs),
      ih (fun x hx => h x (List.mem_cons_of_mem c hx))]

theorem dropWhile_eq_self (p : Char → Bool) (l : List Char)
    (h : ∀ c ∈ l, p c = false) : l.dropWhile p = l := by
  cases l with
  | nil => rfl
  | cons c cs =>
    rw [List.dropWhile_cons, if_neg (by simp [h c (List.mem_cons_self c cs)])]

theorem splitWsAux_nospace (d : Dom) (h : ∀ c ∈ d, isSpaceB c = false) :
    ∀ acc : Dom, acc ≠ [] → splitWsAux d acc = [acc.reverse ++ d] := by
  induction d with
  | nil =>
    intro acc hacc
    simp [splitWsAux, hacc]
  | cons c cs ih =>
    intro acc hacc
    have hc : isSpaceB c = false := h c (List.mem_cons_self c cs)
    simp only [splitWsAux, hc, Bool.false_eq_true, if_false]
    rw [ih (fun x hx => h x (List.mem_cons_of_mem c hx)) (c :: acc) (List.cons_ne_nil c acc)]
    simp

theorem splitWs_nospace (d : Dom) (hne : d ≠ []) (h : ∀ c ∈ d, isSpaceB c = false) :
    splitWs d = [d] := by
  cases d with
  | nil => exact absurd rfl hne
  | cons c cs =>
    unfold splitWs
    have hc : isSpaceB c = false := h c (List.mem_cons_self c cs)
    simp only [splitWsAux, hc, Bool.false_eq_true, if_false]
    rw [splitWsAux_nospace cs (fun x hx => h x (List.mem_cons_of_mem c hx)) [c]
      (List.cons_ne_nil c [])]
    simp

theorem trim_hosts_line (d : Dom) (hne : d ≠ []) (hns : ∀ c ∈ d, isSpaceB c = false) :
    trimB (hostsPre ++ d) = hostsPre ++ d := by
  unfold trimB
  have h1 : ((hostsPre ++ d).dropWhile isSpaceB) = hostsPre ++ d := rfl
  rw [h1]
  unfold dropTrail
  rw [List.reverse_append]
  obtain ⟨a, t, hat⟩ := List.exists_cons_of_ne_nil
    (show d.reverse ≠ [] from fun hh => hne (by simpa using congrArg List.reverse hh))
  have ha : isSpaceB a = false :=
    hns a (List.mem_reverse.1 (hat.symm ▸ List.mem_cons_self a t))
  rw [hat, List.cons_append, List.dropWhile_cons, if_neg (by simp [ha]),
    ← List.cons_append, ← hat, List.reverse_append, List.reverse_reverse,
    List.reverse_reverse]

theorem lower_hosts_line (d : Dom) (hlow : ∀ c ∈ d, lowerChar c = c) :
    (hostsPre ++ d).map lowerChar = hostsPre ++ d := by
  rw [List.map_append, map_lowerChar_self d hlow]
  rfl

theorem hash_free_hosts_line (d : Dom) (hnh : ∀ c ∈ d, c ≠ '#') :
    hasChar (hostsPre ++ d) '#' = false := by
  unfold hasChar
  rw [List.any_append]
  have h2 : d.any (fun a => a == '#') = false := by
    rw [List.any_eq_false]
    intro c hc
    simp [hnh c hc]
  rw [h2]
  rfl

theorem parseD_hosts_line (d : Dom) (hcanon : canonicalDom d) :
    parseD (hostsPre ++ d) = some d := by
  obtain ⟨hne, hprops⟩ := hcanon
  have hns : ∀ c ∈ d, isSpaceB c = false := fun c hc => (hprops c hc).1
  have hnh : ∀ c ∈ d, c ≠ '#' := fun c hc => (hprops c hc).2.1
  have hlow : ∀ c ∈ d, lowerChar c = c := fun c hc => (hprops c hc).2.2
  unfold parseD
  rw [trim_hosts_line d hne hns, lower_hosts_line d hlow]
  unfold parseDcore
  rw [hash_free_hosts_line d hnh]
  show (if ('0' : Char) = '!' then none
    else match splitWs (hostsPre ++ d) with
      | [] => none
      | [t] => some t
      | a :: b :: _ => if a = ip0 ∨ a = ip1 then some b else none) = some d
  rw [if_neg (by decide), show splitWs (hostsPre ++ d) = ip0 :: splitWs d from rfl,
    splitWs_nospace d hne hns]
  show (if ip0 = ip0 ∨ ip0 = ip1 then some d else none) = some d
  rw [if_pos (Or.inl rfl)]

theorem parseD_header : parseD hostsHeader = none := by decide

theorem filterMap_hosts : ∀ L : List Dom, (∀ d ∈ L, canonicalDom d) →
    (L.map (fun d => hostsPre ++ d)).filterMap parseD = L := by
  intro L
  induction L with
  | nil => intro _; rfl
  | cons d ds ih =>
    intro hL
    simp only [List.map_cons, List.filterMap_cons,
      parseD_hosts_line d (hL d (List.mem_cons_self d ds)),
      ih (fun x hx => hL x (List.mem_cons_of_mem d hx))]

/-- C9: writing the hosts-format lines for a final list of canonical domain
strings (header comment line plus one sinkhole line per entry) and re-parsing
the written lines with the Line Parser of build_list.py recovers exactly the
domains of the final list, no more and no fewer. -/
theorem c9_hosts_round_trip (L : List Dom) (hL : ∀ d ∈ L, canonicalDom d) :
    ∀ e : Dom, e ∈ parseAll (hostsLines L) ↔ e ∈ L := by
  intro e
  simp only [parseAll, hostsLines, List.filterMap_cons, parseD_header,
    filterMap_hosts L hL]

/-- Witness for C9 at a concrete one-entry final list. -/
theorem c9_hosts_round_trip_witness :
    adsDom ∈ parseAll (hostsLines [adsDom]) :=
  (c9_hosts_round_trip [adsDom] (by decide) adsDom).2 (by decide)
